import Mathlib

/-!
Shallow embedding of the geocoin map game (cmpm-121-demo-3).

The repository's logical core consists of:
* a deterministic cache ledger: lazy per-cell initialization via a seeded
  pseudo-random function, and collect / deposit transfers between the
  caches and the player's balance (src/main.ts and the refactored variant
  with a Cache record store, handleCollect / handleDeposit);
* a grid canonicalizer (Board): floor-division cell indexing, a
  canonical-cell table keyed by the string "i,j", and cell bounds;
* a neighborhood spawn loop keyed by the cell indices;
* a localStorage persistence layer (saveGameState) that one variant of the
  collect / deposit handlers invokes and another omits.

Modelling conventions: JavaScript numbers carrying integer coin counts are
modelled as Nat (all coin arithmetic in the source is exact small-integer
arithmetic); geographic coordinates are modelled as ℚ, idealizing IEEE
doubles; JavaScript Map / Record objects with string keys are modelled as
association lists with first-match lookup and replace-first-or-append
update, which coincides with unique-key map semantics.  DOM, rendering and
popup plumbing are pure UI and are not part of the state model.
-/

/-- Modelled from the spec: the repository imports the seeded pseudo-random
generator from "./luck.ts", which is not among the provided sources.  The
spec describes it as a pure deterministic function from a string seed to a
float in [0, 1).  We model it as a concrete pure function into ℚ with that
range; only determinism and the range are load-bearing.  This is the
numerator: a simple deterministic string hash modulo 1000003. -/
def luckNum (s : String) : Nat :=
  s.data.foldl (fun h c => (h * 31 + c.toNat) % 1000003) 7

/-- Modelled from the spec: the seeded pseudo-random function, a pure
deterministic map from a string seed to a rational in [0, 1). -/
def luck (s : String) : ℚ :=
  (luckNum s : ℚ) / 1000003

theorem luckNum_lt (s : String) : luckNum s < 1000003 := by
  unfold luckNum
  have h : ∀ (l : List Char) (a : Nat), a < 1000003 →
      l.foldl (fun h c => (h * 31 + c.toNat) % 1000003) a < 1000003 := by
    intro l
    induction l with
    | nil => intro a ha; simpa using ha
    | cons c t ih =>
        intro a _
        exact ih _ (Nat.mod_lt _ (by norm_num))
  exact h s.data 7 (by norm_num)

theorem luck_nonneg (s : String) : 0 ≤ luck s := by
  unfold luck
  positivity

theorem luck_lt_one (s : String) : luck s < 1 := by
  unfold luck
  rw [div_lt_one (by norm_num)]
  exact_mod_cast luckNum_lt s

/-- The Cell interface from board.ts: an immutable pair of integer grid
indices. -/
structure Cell where
  i : Int
  j : Int
deriving DecidableEq, Repr

/-- Decimal digit characters of a natural number, most significant first
(the JavaScript rendering of a non-negative integer). -/
def natChars (n : Nat) : List Char :=
  ((Nat.digits 10 n).map (fun d => Char.ofNat (48 + d))).reverse

/-- Decimal string of a natural number, as JavaScript template literals
print non-negative integers. -/
def natStr (n : Nat) : String :=
  if n = 0 then "0" else String.mk (natChars n)

/-- Decimal string of an integer, as JavaScript template literals print
integers: a leading minus sign for negative values. -/
def intStr (n : Int) : String :=
  if n < 0 then "-" ++ natStr n.natAbs else natStr n.natAbs

/-- The string key "i,j" that the source builds both as a template literal
and as the JavaScript array rendering of the pair. -/
def cellKeyStr (i j : Int) : String :=
  intStr i ++ "," ++ intStr j

/-- getCacheKey from the refactored source: the cache-store key of a cell,
also the expression built inline by board.ts for knownCells. -/
def getCacheKey (cell : Cell) : String :=
  cellKeyStr cell.i cell.j

theorem digitChar_toNat {d : Nat} (hd : d < 10) :
    (Char.ofNat (48 + d)).toNat = 48 + d := by
  interval_cases d <;> rfl

theorem digitChar_mem_natChars {n : Nat} {c : Char} (hc : c ∈ natChars n) :
    ∃ d, d < 10 ∧ c = Char.ofNat (48 + d) := by
  unfold natChars at hc
  rw [List.mem_reverse, List.mem_map] at hc
  obtain ⟨d, hd, rfl⟩ := hc
  exact ⟨d, Nat.digits_lt_base (by norm_num) hd, rfl⟩

theorem natChars_injective : Function.Injective natChars := by
  intro n m h
  unfold natChars at h
  have h' := List.reverse_injective h
  have hmap : (Nat.digits 10 n).map (fun d => Char.ofNat (48 + d)) =
      (Nat.digits 10 m).map (fun d => Char.ofNat (48 + d)) := h'
  have key : ∀ (l₁ l₂ : List Nat), (∀ d ∈ l₁, d < 10) → (∀ d ∈ l₂, d < 10) →
      l₁.map (fun d => Char.ofNat (48 + d)) = l₂.map (fun d => Char.ofNat (48 + d)) →
      l₁ = l₂ := by
    intro l₁
    induction l₁ with
    | nil => intro l₂ _ _ hm; cases l₂ <;> simp_all
    | cons a t ih =>
        intro l₂ h₁ h₂ hm
        cases l₂ with
        | nil => simp at hm
        | cons b t₂ =>
            simp only [List.map_cons, List.cons.injEq] at hm
            have ha : a < 10 := h₁ a (by simp)
            have hb : b < 10 := h₂ b (by simp)
            have hab : a = b := by
              have := congrArg Char.toNat hm.1
              rw [digitChar_toNat ha, digitChar_toNat hb] at this
              omega
            have ht : t = t₂ :=
              ih t₂ (fun d hd => h₁ d (by simp [hd])) (fun d hd => h₂ d (by simp [hd])) hm.2
            rw [hab, ht]
  have : Nat.digits 10 n = Nat.digits 10 m :=
    key _ _ (fun d hd => Nat.digits_lt_base (by norm_num) hd)
      (fun d hd => Nat.digits_lt_base (by norm_num) hd) hmap
  exact Nat.digits.injective 10 this

theorem natChars_ne_digit_zero {n : Nat} (hn : n ≠ 0) : natChars n ≠ ['0'] := by
  intro h
  unfold natChars at h
  have : (Nat.digits 10 n).map (fun d => Char.ofNat (48 + d)) = ['0'] := by
    have := congrArg List.reverse h
    simpa using this
  cases hd : Nat.digits 10 n with
  | nil => rw [hd] at this; simp at this
  | cons d t =>
      rw [hd] at this
      cases t with
      | nil =>
          simp only [List.map_cons, List.map_nil, List.cons.injEq, and_true] at this
          have hdlt : d < 10 := Nat.digits_lt_base (by norm_num) (by rw [hd]; simp)
          have : (Char.ofNat (48 + d)).toNat = ('0' : Char).toNat := by rw [this]
          rw [digitChar_toNat hdlt] at this
          have hd0 : d = 0 := by
            have : ('0' : Char).toNat = 48 := rfl
            omega
          have := Nat.ofDigits_digits 10 n
          rw [hd, hd0] at this
          simp [Nat.ofDigits] at this
          exact hn this.symm
      | cons d₂ t₂ => simp at this

theorem natStr_injective : Function.Injective natStr := by
  intro n m h
  unfold natStr at h
  by_cases hn : n = 0 <;> by_cases hm : m = 0
  · omega
  · rw [if_pos hn, if_neg hm] at h
    exact absurd (congrArg String.data h).symm
      (by simpa using natChars_ne_digit_zero hm)
  · rw [if_neg hn, if_pos hm] at h
    exact absurd (congrArg String.data h)
      (by simpa using natChars_ne_digit_zero hn)
  · rw [if_neg hn, if_neg hm] at h
    exact natChars_injective (congrArg String.data h)

theorem natStr_chars {n : Nat} {c : Char} (hc : c ∈ (natStr n).data) :
    c ≠ ',' ∧ c ≠ '-' := by
  unfold natStr at hc
  by_cases hn : n = 0
  · rw [if_pos hn] at hc
    simp only [show ("0" : String).data = ['0'] from rfl, List.mem_singleton] at hc
    subst hc; exact ⟨by decide, by decide⟩
  · rw [if_neg hn] at hc
    obtain ⟨d, hd, rfl⟩ := digitChar_mem_natChars hc
    constructor
    · intro h
      have := congrArg Char.toNat h
      rw [digitChar_toNat hd] at this
      have : (',' : Char).toNat = 44 := rfl
      omega
    · intro h
      have := congrArg Char.toNat h
      rw [digitChar_toNat hd] at this
      have : ('-' : Char).toNat = 45 := rfl
      omega

theorem natStr_ne_nil (n : Nat) : (natStr n).data ≠ [] := by
  unfold natStr
  by_cases hn : n = 0
  · rw [if_pos hn]; simp [show ("0" : String).data = ['0'] from rfl]
  · rw [if_neg hn]
    unfold natChars
    simp only [ne_eq, List.reverse_eq_nil_iff, List.map_eq_nil_iff]
    exact Nat.digits_ne_nil_iff_ne_zero.mpr hn

theorem intStr_injective : Function.Injective intStr := by
  intro n m h
  unfold intStr at h
  by_cases hn : n < 0 <;> by_cases hm : m < 0
  · rw [if_pos hn, if_pos hm] at h
    have hdata := congrArg String.data h
    rw [String.data_append, String.data_append] at hdata
    have : (natStr n.natAbs).data = (natStr m.natAbs).data := by
      have hm : ("-" : String).data = ['-'] := rfl
      rw [hm] at hdata
      simpa using hdata
    have habs : n.natAbs = m.natAbs := by
      apply natStr_injective
      cases hs : natStr n.natAbs; cases hs' : natStr m.natAbs
      simp only [hs, hs'] at this ⊢
      exact congrArg String.mk this
    omega
  · rw [if_pos hn, if_neg hm] at h
    exfalso
    have hdata := congrArg String.data h
    rw [String.data_append] at hdata
    have hmk : ("-" : String).data = ['-'] := rfl
    rw [hmk] at hdata
    cases hd : (natStr m.natAbs).data with
    | nil => exact natStr_ne_nil _ hd
    | cons c t =>
        rw [hd] at hdata
        have hh : '-' = c ∧ (natStr n.natAbs).data = t := by simpa using hdata
        exact (natStr_chars (show c ∈ (natStr m.natAbs).data by rw [hd]; simp)).2 hh.1.symm
  · rw [if_neg hn, if_pos hm] at h
    exfalso
    have hdata := congrArg String.data h
    rw [String.data_append] at hdata
    have hmk : ("-" : String).data = ['-'] := rfl
    rw [hmk] at hdata
    cases hd : (natStr n.natAbs).data with
    | nil => exact natStr_ne_nil _ hd
    | cons c t =>
        rw [hd] at hdata
        have hh : c = '-' ∧ t = (natStr m.natAbs).data := by simpa using hdata
        exact (natStr_chars (show c ∈ (natStr n.natAbs).data by rw [hd]; simp)).2 hh.1
  · rw [if_neg hn, if_neg hm] at h
    have habs : n.natAbs = m.natAbs := natStr_injective h
    omega

theorem intStr_no_comma {n : Int} {c : Char} (hc : c ∈ (intStr n).data) : c ≠ ',' := by
  unfold intStr at hc
  by_cases hn : n < 0
  · rw [if_pos hn] at hc
    rw [String.data_append] at hc
    have hmk : ("-" : String).data = ['-'] := rfl
    rw [hmk] at hc
    rcases List.mem_cons.mp hc with h | h
    · subst h; decide
    · exact (natStr_chars h).1
  · rw [if_neg hn] at hc
    exact (natStr_chars hc).1

theorem comma_split {a₁ a₂ b₁ b₂ : List Char}
    (h₁ : (',' : Char) ∉ a₁) (h₂ : (',' : Char) ∉ a₂)
    (h : a₁ ++ ',' :: b₁ = a₂ ++ ',' :: b₂) : a₁ = a₂ ∧ b₁ = b₂ := by
  induction a₁ generalizing a₂ with
  | nil =>
      cases a₂ with
      | nil => simpa using h
      | cons c t =>
          exfalso
          simp only [List.nil_append, List.cons_append, List.cons.injEq] at h
          exact h₂ (by rw [← h.1]; simp)
  | cons c t ih =>
      cases a₂ with
      | nil =>
          exfalso
          simp only [List.cons_append, List.nil_append, List.cons.injEq] at h
          exact h₁ (by rw [h.1]; simp)
      | cons c₂ t₂ =>
          simp only [List.cons_append, List.cons.injEq] at h
          have := ih (fun hm => h₁ (by simp [hm])) (fun hm => h₂ (by simp [hm])) h.2
          exact ⟨by rw [h.1, this.1], this.2⟩

theorem cellKeyStr_injective {i j i' j' : Int}
    (h : cellKeyStr i j = cellKeyStr i' j') : i = i' ∧ j = j' := by
  unfold cellKeyStr at h
  have hdata := congrArg String.data h
  rw [String.data_append, String.data_append, String.data_append, String.data_append] at hdata
  have hmk : ("," : String).data = [','] := rfl
  rw [hmk] at hdata
  simp only [List.append_assoc, List.singleton_append] at hdata
  have := comma_split (fun hm => intStr_no_comma hm rfl) (fun hm => intStr_no_comma hm rfl) hdata
  constructor
  · apply intStr_injective
    cases hs : intStr i; cases hs' : intStr i'
    simp only [hs, hs'] at this ⊢
    exact congrArg String.mk this.1
  · apply intStr_injective
    cases hs : intStr j; cases hs' : intStr j'
    simp only [hs, hs'] at this ⊢
    exact congrArg String.mk this.2

theorem getCacheKey_injective : Function.Injective getCacheKey := by
  intro c c' h
  unfold getCacheKey at h
  have := cellKeyStr_injective h
  cases c; cases c'
  simp_all

/-- First-match lookup in an association list: the semantics of
JavaScript Map.get and Record bracket access under unique keys. -/
def lookupKV {α : Type} : List (String × α) → String → Option α
  | [], _ => none
  | (k', v) :: rest, k => if k' = k then some v else lookupKV rest k

/-- Replace-first-or-append update: the semantics of JavaScript Map.set
and Record bracket assignment under unique keys. -/
def setKV {α : Type} : List (String × α) → String → α → List (String × α)
  | [], k, v => [(k, v)]
  | (k', v') :: rest, k, v =>
      if k' = k then (k, v) :: rest else (k', v') :: setKV rest k v

theorem lookupKV_setKV {α : Type} (l : List (String × α)) (k' : String) (v : α) (k : String) :
    lookupKV (setKV l k' v) k = if k = k' then some v else lookupKV l k := by
  induction l with
  | nil =>
      by_cases h : k = k'
      · subst h; simp [setKV, lookupKV]
      · have h' : ¬k' = k := fun hh => h hh.symm
        simp [setKV, lookupKV, h, h']
  | cons e rest ih =>
      obtain ⟨k₀, v₀⟩ := e
      by_cases h₀ : k₀ = k'
      · subst h₀
        by_cases h : k = k₀
        · subst h; simp [setKV, lookupKV]
        · have h' : ¬k₀ = k := fun hh => h hh.symm
          simp [setKV, lookupKV, h, h']
      · simp only [setKV, if_neg h₀]
        by_cases h : k₀ = k
        · have h1 : ¬k = k' := fun hh => h₀ (h.trans hh)
          simp [lookupKV, h, h1]
        · simp [lookupKV, h, ih]

theorem lookupKV_mem {α : Type} {l : List (String × α)} {k : String} {v : α}
    (h : lookupKV l k = some v) : (k, v) ∈ l := by
  induction l with
  | nil => simp [lookupKV] at h
  | cons e rest ih =>
      obtain ⟨k₀, v₀⟩ := e
      by_cases h₀ : k₀ = k
      · subst h₀
        simp [lookupKV] at h
        simp [h]
      · simp [lookupKV, h₀] at h
        simp [ih h]

/-- The initial coin count of a cell: floor(luck("i,j,initialValue") * 20),
exactly the expression Math.floor(luck([i, j, "initialValue"].toString()) * 20)
of getCacheCoins / createCache (the JavaScript array renders as the
comma-joined string). -/
def initialCoins (cell : Cell) : Nat :=
  (Int.floor (luck (getCacheKey cell ++ ",initialValue") * 20)).toNat

theorem initialCoins_lt (cell : Cell) : initialCoins cell < 20 := by
  unfold initialCoins
  have h1 : luck (getCacheKey cell ++ ",initialValue") * 20 < 20 := by
    have := luck_lt_one (getCacheKey cell ++ ",initialValue")
    nlinarith
  have h2 : Int.floor (luck (getCacheKey cell ++ ",initialValue") * 20) < 20 := by
    rw [Int.floor_lt]
    exact_mod_cast h1
  omega

/-- The Cache record of the refactored source: its cell and its coin
count. -/
structure Cache where
  cell : Cell
  coins : Nat
deriving DecidableEq, Repr

/-- The coin-bearing slice of the refactored GameState: the player's coin
balance and the cache store keyed by "i,j" strings.  The map object,
status panel and other UI fields are not part of the logical state. -/
structure PState where
  playerCoins : Nat
  cacheStore : List (String × Cache)
deriving DecidableEq, Repr

/-- createCache from the refactored source: reuse the stored coin count
for the cell's key when present, otherwise derive the seeded initial
value. -/
def createCache (s : PState) (cell : Cell) : Cache :=
  { cell := cell
    coins :=
      match lookupKV s.cacheStore (getCacheKey cell) with
      | some c => c.coins
      | none => initialCoins cell }

/-- saveCache from the refactored source: store the cache under its own
cell's key. -/
def saveCache (s : PState) (cache : Cache) : PState :=
  { s with cacheStore := setKV s.cacheStore (getCacheKey cache.cell) cache }

/-- handleCollect from the refactored source.  The handler receives the
Cache object that spawnCache stored under the cell's key before binding
the popup, and mutates that shared object; we model it by reading the
store at the cell's key.  A missing entry cannot arise in the program
(every popup's cache was saved first) and is modelled as a no-op.
If the cache has coins, they are added to the player's balance, the
cache's count is set to 0 and the cache is re-saved. -/
def handleCollect (s : PState) (cell : Cell) : PState :=
  match lookupKV s.cacheStore (getCacheKey cell) with
  | some cache =>
      if cache.coins > 0 then
        saveCache { s with playerCoins := s.playerCoins + cache.coins }
          { cache with coins := 0 }
      else s
  | none => s

/-- handleDeposit from the refactored source: if the player has coins,
the full balance is added to the cache's count, the balance is zeroed and
the cache is re-saved.  The store is read at the cell's key exactly as in
handleCollect. -/
def handleDeposit (s : PState) (cell : Cell) : PState :=
  if s.playerCoins > 0 then
    match lookupKV s.cacheStore (getCacheKey cell) with
    | some cache =>
        saveCache { s with playerCoins := 0 }
          { cache with coins := cache.coins + s.playerCoins }
    | none => s
  else s

/-- spawnCache from the refactored source, restricted to its state effect:
create (or re-derive) the cell's cache and save it.  Rectangle and popup
creation are pure UI. -/
def spawnCache (s : PState) (cell : Cell) : PState :=
  saveCache s (createCache s cell)

/-- Store well-formedness: every entry of the cache store is keyed by its
own cache's cell.  Every write the program performs (saveCache) keys the
entry this way, so every reachable store satisfies it. -/
def PWF (s : PState) : Prop :=
  ∀ e ∈ s.cacheStore, e.1 = getCacheKey e.2.cell

/-- Total coin mass of a store: the sum of all cache balances. -/
def storeCoins (l : List (String × Cache)) : Nat :=
  (l.map (fun e => e.2.coins)).sum

/-- Total coin mass of a game state: the player's balance plus the sum of
all cache balances. -/
def totalCoins (s : PState) : Nat :=
  s.playerCoins + storeCoins s.cacheStore

theorem mem_setKV {α : Type} {l : List (String × α)} {k : String} {v : α} {e : String × α}
    (h : e ∈ setKV l k v) : e = (k, v) ∨ e ∈ l := by
  induction l with
  | nil => simpa [setKV] using h
  | cons e₀ rest ih =>
      obtain ⟨k₀, v₀⟩ := e₀
      by_cases h₀ : k₀ = k
      · rw [show setKV ((k₀, v₀) :: rest) k v = (k, v) :: rest by simp [setKV, h₀]] at h
        rcases List.mem_cons.mp h with h1 | h1
        · exact Or.inl h1
        · exact Or.inr (List.mem_cons_of_mem _ h1)
      · rw [show setKV ((k₀, v₀) :: rest) k v = (k₀, v₀) :: setKV rest k v by
          simp [setKV, h₀]] at h
        rcases List.mem_cons.mp h with h1 | h1
        · exact Or.inr (h1 ▸ List.mem_cons_self _ _)
        · rcases ih h1 with h2 | h2
          · exact Or.inl h2
          · exact Or.inr (List.mem_cons_of_mem _ h2)

theorem storeCoins_setKV {l : List (String × Cache)} {k : String} {cache : Cache}
    (h : lookupKV l k = some cache) (cache' : Cache) :
    storeCoins (setKV l k cache') + cache.coins = storeCoins l + cache'.coins := by
  induction l with
  | nil => simp [lookupKV] at h
  | cons e rest ih =>
      obtain ⟨k₀, c₀⟩ := e
      by_cases h₀ : k₀ = k
      · subst h₀
        have hc : c₀ = cache := by simpa [lookupKV] using h
        subst hc
        rw [show setKV ((k₀, c₀) :: rest) k₀ cache' = (k₀, cache') :: rest by
          simp [setKV]]
        simp only [storeCoins, List.map_cons, List.sum_cons]
        omega
      · simp only [lookupKV, if_neg h₀] at h
        simp only [setKV, if_neg h₀, storeCoins, List.map_cons, List.sum_cons]
        have := ih h
        simp only [storeCoins] at this
        omega

theorem lookupKV_eq_key {s : PState} {cell : Cell} {cache : Cache}
    (hwf : PWF s) (h : lookupKV s.cacheStore (getCacheKey cell) = some cache) :
    getCacheKey cache.cell = getCacheKey cell :=
  (hwf _ (lookupKV_mem h)).symm

theorem handleCollect_total {s : PState} (hwf : PWF s) (cell : Cell) :
    totalCoins (handleCollect s cell) = totalCoins s := by
  unfold handleCollect
  cases hl : lookupKV s.cacheStore (getCacheKey cell) with
  | none => rfl
  | some cache =>
      by_cases hc : cache.coins > 0
      · simp only [hc, if_pos]
        have hk := lookupKV_eq_key hwf hl
        unfold saveCache totalCoins
        simp only
        rw [hk]
        have := storeCoins_setKV hl ({ cache with coins := 0 })
        simp only at this
        omega
      · simp [hc]

theorem handleDeposit_total {s : PState} (hwf : PWF s) (cell : Cell) :
    totalCoins (handleDeposit s cell) = totalCoins s := by
  unfold handleDeposit
  by_cases hp : s.playerCoins > 0
  · simp only [hp, if_pos]
    cases hl : lookupKV s.cacheStore (getCacheKey cell) with
    | none => rfl
    | some cache =>
        have hk := lookupKV_eq_key hwf hl
        unfold saveCache totalCoins
        simp only
        rw [hk]
        have := storeCoins_setKV hl ({ cache with coins := cache.coins + s.playerCoins })
        simp only at this
        omega
  · simp [hp]

theorem saveCache_PWF {s : PState} (hwf : PWF s) (cache : Cache) :
    PWF (saveCache s cache) := by
  intro e he
  unfold saveCache at he
  simp only at he
  rcases mem_setKV he with h | h
  · subst h; rfl
  · exact hwf e h

theorem handleCollect_PWF {s : PState} (hwf : PWF s) (cell : Cell) :
    PWF (handleCollect s cell) := by
  unfold handleCollect
  cases hl : lookupKV s.cacheStore (getCacheKey cell) with
  | none => exact hwf
  | some cache =>
      by_cases hc : cache.coins > 0
      · simp only [hc, if_pos]
        exact saveCache_PWF (fun e he => hwf e he) _
      · simpa [hc] using hwf

theorem handleDeposit_PWF {s : PState} (hwf : PWF s) (cell : Cell) :
    PWF (handleDeposit s cell) := by
  unfold handleDeposit
  by_cases hp : s.playerCoins > 0
  · simp only [hp, if_pos]
    cases hl : lookupKV s.cacheStore (getCacheKey cell) with
    | none => exact hwf
    | some cache => exact saveCache_PWF (fun e he => hwf e he) _
  · simpa [hp] using hwf

/-- A collect or deposit action aimed at a cell, the two coin-moving
operations of the game. -/
inductive Op where
  | collect (cell : Cell)
  | deposit (cell : Cell)
deriving DecidableEq, Repr

/-- Apply one collect or deposit action to the game state. -/
def applyOp (s : PState) : Op → PState
  | Op.collect cell => handleCollect s cell
  | Op.deposit cell => handleDeposit s cell

/-- Run a sequence of collect / deposit actions left to right. -/
def runOps (s : PState) (ops : List Op) : PState :=
  ops.foldl applyOp s

theorem applyOp_total {s : PState} (hwf : PWF s) (op : Op) :
    totalCoins (applyOp s op) = totalCoins s := by
  cases op with
  | collect cell => exact handleCollect_total hwf cell
  | deposit cell => exact handleDeposit_total hwf cell

theorem applyOp_PWF {s : PState} (hwf : PWF s) (op : Op) :
    PWF (applyOp s op) := by
  cases op with
  | collect cell => exact handleCollect_PWF hwf cell
  | deposit cell => exact handleDeposit_PWF hwf cell

/-- getCacheCoins from src/main.ts: the get-or-init accessor on the
Map-of-numbers cache store.  If the cell's key is absent, the seeded
initial value is computed and stored; the stored count is returned
(the source's non-null get is total because the key was just ensured,
modelled by getD). -/
def getCacheCoins (cacheData : List (String × Nat)) (cell : Cell) : Nat × List (String × Nat) :=
  let key := getCacheKey cell
  let data :=
    if (lookupKV cacheData key).isSome then cacheData
    else setKV cacheData key (initialCoins cell)
  ((lookupKV data key).getD 0, data)

/-- A geographic point, as leaflet.LatLng: latitude and longitude,
idealized to ℚ. -/
structure LatLng where
  lat : ℚ
  lng : ℚ
deriving DecidableEq, Repr

/-- The Board class from board.ts: the fixed tile width, the visibility
radius (stored but unused by the methods modelled here) and the
canonical-cell table keyed by "i,j". -/
structure Board where
  tileWidth : ℚ
  visibilityRadius : ℚ
  knownCells : List (String × Cell)
deriving DecidableEq, Repr

/-- Board.getCanonicalCell: insert the cell under its key only if the key
is unseen, then return the stored cell (the source's non-null get is
total because the key was just ensured, modelled by getD). -/
def Board.getCanonicalCell (b : Board) (cell : Cell) : Cell × Board :=
  let key := getCacheKey cell
  let b' :=
    if (lookupKV b.knownCells key).isSome then b
    else { b with knownCells := setKV b.knownCells key cell }
  ((lookupKV b'.knownCells key).getD cell, b')

/-- Board.getCellForPoint: floor-divide both coordinates by the tile
width and canonicalize the resulting index pair. -/
def Board.getCellForPoint (b : Board) (point : LatLng) : Cell × Board :=
  let i := Int.floor (point.lat / b.tileWidth)
  let j := Int.floor (point.lng / b.tileWidth)
  b.getCanonicalCell { i := i, j := j }

/-- Board.getCellBounds: the cell's rectangle from (i*tile, j*tile) to
((i+1)*tile, (j+1)*tile), built from the (0,0) origin as in the source. -/
def Board.getCellBounds (b : Board) (cell : Cell) : LatLng × LatLng :=
  let origin : LatLng := { lat := 0, lng := 0 }
  ({ lat := origin.lat + cell.i * b.tileWidth
     lng := origin.lng + cell.j * b.tileWidth },
   { lat := origin.lat + (cell.i + 1) * b.tileWidth
     lng := origin.lng + (cell.j + 1) * b.tileWidth })

/-- Board well-formedness: every canonical entry is stored under its own
cell's key.  getCanonicalCell only ever inserts a cell at that cell's
key, so every board reachable from the empty table satisfies this. -/
def BoardWF (b : Board) : Prop :=
  ∀ e ∈ b.knownCells, e.1 = getCacheKey e.2

/-- Fold a sequence of getCellForPoint calls over a board, keeping only
the evolving canonical table. -/
def runPoints (b : Board) (ps : List LatLng) : Board :=
  ps.foldl (fun b p => (Board.getCellForPoint b p).2) b

/-- TILE_DEGREES from the source configuration (1e-4). -/
def TILE_DEGREES : ℚ := 1 / 10000

/-- NEIGHBORHOOD_SIZE from the source configuration. -/
def NEIGHBORHOOD_SIZE : Nat := 8

/-- CACHE_SPAWN_PROBABILITY from the source configuration (0.1). -/
def CACHE_SPAWN_PROBABILITY : ℚ := 1 / 10

/-- The loop offsets -n, ..., n-1 of the regeneration loops
(for i = -NEIGHBORHOOD_SIZE; i < NEIGHBORHOOD_SIZE; i++). -/
def offsets (n : Nat) : List Int :=
  (List.range (2 * n)).map (fun k => (k : Int) - (n : Int))

/-- All (i, j) offset pairs visited by the nested regeneration loops, in
loop order. -/
def offsetPairs : List (Int × Int) :=
  (offsets NEIGHBORHOOD_SIZE).flatMap
    (fun i => (offsets NEIGHBORHOOD_SIZE).map (fun j => (i, j)))

/-- One body of the regenerateCaches loop: derive the probe point from
the center and the offsets, canonicalize it to a cell, and spawn a cache
there when the seeded test passes. -/
def regenStep (center : LatLng) (st : Board × PState) (ij : Int × Int) : Board × PState :=
  let cellPoint : LatLng :=
    { lat := center.lat + ij.1 * TILE_DEGREES
      lng := center.lng + ij.2 * TILE_DEGREES }
  let r := Board.getCellForPoint st.1 cellPoint
  if luck (getCacheKey r.1) < CACHE_SPAWN_PROBABILITY then (r.2, spawnCache st.2 r.1)
  else (r.2, st.2)

/-- regenerateCaches from the refactored source, restricted to its state
effect: run the loop body over every offset pair around the center.
Removing the old rectangles from the map is pure UI. -/
def regenerateCaches (center : LatLng) (st : Board × PState) : Board × PState :=
  offsetPairs.foldl (regenStep center) st

/-- The spawn decision as a pure function of the cell indices alone:
the seeded test luck("i,j") < CACHE_SPAWN_PROBABILITY. -/
def spawnDecision (i j : Int) : Bool :=
  decide (luck (cellKeyStr i j) < CACHE_SPAWN_PROBABILITY)

/-- The four localStorage keys written by saveGameState, each absent
until first written. -/
structure Storage where
  playerPosition : Option LatLng
  cacheStoreKey : Option (List (String × Cache))
  playerCoinsKey : Option Nat
  movementHistory : Option (List LatLng)
deriving DecidableEq, Repr

/-- The full persisted-game model: the coin state, the player marker
position, the movement polyline and the localStorage contents. -/
structure FState where
  game : PState
  playerPos : LatLng
  history : List LatLng
  storage : Storage
deriving DecidableEq, Repr

/-- saveGameState from the refactored source: synchronously write the
player position, the cache store, the coin balance and the movement
history to their storage keys. -/
def saveGameState (f : FState) : FState :=
  { f with
    storage :=
      { playerPosition := some f.playerPos
        cacheStoreKey := some f.game.cacheStore
        playerCoinsKey := some f.game.playerCoins
        movementHistory := some f.history } }

/-- handleCollect of the persisting source variant: the coin transfer
followed, inside the same guarded handler body, by saveGameState. -/
def handleCollectPersist (f : FState) (cell : Cell) : FState :=
  match lookupKV f.game.cacheStore (getCacheKey cell) with
  | some cache =>
      if cache.coins > 0 then
        saveGameState
          { f with
            game :=
              saveCache { f.game with playerCoins := f.game.playerCoins + cache.coins }
                { cache with coins := 0 } }
      else f
  | none => f

/-- handleDeposit of the persisting source variant: the coin transfer
followed, inside the same guarded handler body, by saveGameState. -/
def handleDepositPersist (f : FState) (cell : Cell) : FState :=
  if f.game.playerCoins > 0 then
    match lookupKV f.game.cacheStore (getCacheKey cell) with
    | some cache =>
        saveGameState
          { f with
            game :=
              saveCache { f.game with playerCoins := 0 }
                { cache with coins := cache.coins + f.game.playerCoins } }
    | none => f
  else f

/-- handleCollect of the non-persisting source variant: the same coin
transfer with no write to storage. -/
def handleCollectNoPersist (f : FState) (cell : Cell) : FState :=
  { f with game := handleCollect f.game cell }

/-- handleDeposit of the non-persisting source variant: the same coin
transfer with no write to storage. -/
def handleDepositNoPersist (f : FState) (cell : Cell) : FState :=
  { f with game := handleDeposit f.game cell }

/-- Sample data for witnesses: a cell, a cache of 5 coins stored under
the cell's key, and a state where the player holds 3 coins. -/
def cellA : Cell := { i := 1, j := 2 }

/-- Sample cache at cellA holding 5 coins. -/
def cacheA : Cache := { cell := cellA, coins := 5 }

/-- Sample one-entry cache store. -/
def storeA : List (String × Cache) := [(getCacheKey cellA, cacheA)]

/-- Sample game state: player holds 3 coins, one cache of 5 coins. -/
def stateA : PState := { playerCoins := 3, cacheStore := storeA }

theorem stateA_PWF : PWF stateA := by
  intro e he
  simp only [stateA, storeA] at he
  rcases List.mem_singleton.mp he with rfl
  rfl

theorem stateA_lookup : lookupKV stateA.cacheStore (getCacheKey cellA) = some cacheA := by
  simp [stateA, storeA, lookupKV]

/-- C1: Coin conservation.  For every well-formed game state (every
reachable store keys each cache by its own cell, as every saveCache write
does) and every sequence of collect and deposit operations on any caches,
the player's balance plus the sum of all stored cache balances is
unchanged: no operation creates or destroys coins. -/
theorem coin_conservation (ops : List Op) (s : PState) (hwf : PWF s) :
    totalCoins (runOps s ops) = totalCoins s := by
  induction ops generalizing s with
  | nil => rfl
  | cons op rest ih =>
      show totalCoins (runOps (applyOp s op) rest) = _
      rw [ih _ (applyOp_PWF hwf op), applyOp_total hwf op]

/-- Witness for C1 at a concrete state and operation sequence. -/
theorem coin_conservation_witness :
    PWF stateA ∧
    totalCoins (runOps stateA [Op.collect cellA, Op.deposit cellA]) = totalCoins stateA :=
  ⟨stateA_PWF, coin_conservation [Op.collect cellA, Op.deposit cellA] stateA stateA_PWF⟩

/-- C2: Collect postcondition.  For every well-formed state and every
cache stored at the cell's key, handleCollect adds the cache's previous
coin count to the player's balance and leaves a cache with 0 coins stored
at that key (when the cache is already empty the handler is a no-op,
which satisfies the same postcondition). -/
theorem collect_postcondition (s : PState) (cell : Cell) (cache : Cache)
    (hwf : PWF s) (h : lookupKV s.cacheStore (getCacheKey cell) = some cache) :
    (handleCollect s cell).playerCoins = s.playerCoins + cache.coins ∧
    ∃ cache', lookupKV (handleCollect s cell).cacheStore (getCacheKey cell) = some cache' ∧
      cache'.coins = 0 := by
  have heq : handleCollect s cell =
      if cache.coins > 0 then
        saveCache { s with playerCoins := s.playerCoins + cache.coins }
          { cache with coins := 0 }
      else s := by
    unfold handleCollect
    rw [h]
  rw [heq]
  by_cases hc : cache.coins > 0
  · rw [if_pos hc]
    refine ⟨rfl, { cache with coins := 0 }, ?_, rfl⟩
    unfold saveCache
    simp only
    rw [lookupKV_setKV]
    have hk := lookupKV_eq_key hwf h
    simp only at hk
    rw [if_pos hk.symm]
  · rw [if_neg hc]
    have hc0 : cache.coins = 0 := by omega
    exact ⟨by omega, cache, h, hc0⟩

/-- Witness for C2 at a concrete state and cell. -/
theorem collect_postcondition_witness :
    PWF stateA ∧ lookupKV stateA.cacheStore (getCacheKey cellA) = some cacheA ∧
    ((handleCollect stateA cellA).playerCoins = stateA.playerCoins + cacheA.coins ∧
      ∃ cache', lookupKV (handleCollect stateA cellA).cacheStore (getCacheKey cellA) =
          some cache' ∧ cache'.coins = 0) :=
  ⟨stateA_PWF, stateA_lookup,
    collect_postcondition stateA cellA cacheA stateA_PWF stateA_lookup⟩

/-- C3: Deposit postcondition.  For every well-formed state and every
cache stored at the cell's key, handleDeposit zeroes the player's balance
and leaves a cache holding its previous count plus the player's whole
previous balance at that key (with a zero balance the handler is a no-op,
which satisfies the same postcondition). -/
theorem deposit_postcondition (s : PState) (cell : Cell) (cache : Cache)
    (hwf : PWF s) (h : lookupKV s.cacheStore (getCacheKey cell) = some cache) :
    (handleDeposit s cell).playerCoins = 0 ∧
    ∃ cache', lookupKV (handleDeposit s cell).cacheStore (getCacheKey cell) = some cache' ∧
      cache'.coins = cache.coins + s.playerCoins := by
  by_cases hp : s.playerCoins > 0
  · have heq : handleDeposit s cell =
        saveCache { s with playerCoins := 0 }
          { cache with coins := cache.coins + s.playerCoins } := by
      unfold handleDeposit
      rw [if_pos hp, h]
    rw [heq]
    refine ⟨rfl, { cache with coins := cache.coins + s.playerCoins }, ?_, rfl⟩
    unfold saveCache
    simp only
    rw [lookupKV_setKV]
    have hk := lookupKV_eq_key hwf h
    simp only at hk
    rw [if_pos hk.symm]
  · have heq : handleDeposit s cell = s := by
      unfold handleDeposit
      rw [if_neg hp]
    rw [heq]
    have hp0 : s.playerCoins = 0 := by omega
    exact ⟨hp0, cache, h, by omega⟩

/-- Witness for C3 at a concrete state and cell. -/
theorem deposit_postcondition_witness :
    PWF stateA ∧ lookupKV stateA.cacheStore (getCacheKey cellA) = some cacheA ∧
    ((handleDeposit stateA cellA).playerCoins = 0 ∧
      ∃ cache', lookupKV (handleDeposit stateA cellA).cacheStore (getCacheKey cellA) =
          some cache' ∧ cache'.coins = cacheA.coins + stateA.playerCoins) :=
  ⟨stateA_PWF, stateA_lookup,
    deposit_postcondition stateA cellA cacheA stateA_PWF stateA_lookup⟩

/-- C4: Cache lazy initialization.  For every cell, getCacheCoins returns
the stored coin count unchanged when the cell's key is present, and
otherwise computes the seeded initial value floor(luck("i,j,initialValue")
* 20) — an integer below 20 — stores it under the key and returns it.
The initial value is a pure function of the cell alone, so two fresh
computations for the same (i, j) agree. -/
theorem cache_lazy_init (cacheData : List (String × Nat)) (cell : Cell) :
    (∀ c, lookupKV cacheData (getCacheKey cell) = some c →
        getCacheCoins cacheData cell = (c, cacheData)) ∧
    (lookupKV cacheData (getCacheKey cell) = none →
        getCacheCoins cacheData cell =
          (initialCoins cell, setKV cacheData (getCacheKey cell) (initialCoins cell)) ∧
        initialCoins cell < 20) := by
  constructor
  · intro c h
    unfold getCacheCoins
    simp [h]
  · intro h
    unfold getCacheCoins
    refine ⟨?_, initialCoins_lt cell⟩
    simp [h, lookupKV_setKV]

/-- Witness for C4 on the empty store (and, via the theorem's first
conjunct, on the store the first call produced). -/
theorem cache_lazy_init_witness :
    lookupKV ([] : List (String × Nat)) (getCacheKey cellA) = none ∧
    (getCacheCoins [] cellA =
        (initialCoins cellA, setKV [] (getCacheKey cellA) (initialCoins cellA)) ∧
      initialCoins cellA < 20) :=
  ⟨rfl, (cache_lazy_init [] cellA).2 rfl⟩

/-- The index pair getCellForPoint computes for a point before
canonicalization: floor of each coordinate divided by the tile width. -/
def computedCell (b : Board) (p : LatLng) : Cell :=
  { i := Int.floor (p.lat / b.tileWidth), j := Int.floor (p.lng / b.tileWidth) }

theorem getCellForPoint_eq (b : Board) (p : LatLng) :
    Board.getCellForPoint b p = Board.getCanonicalCell b (computedCell b p) := rfl

theorem getCanonicalCell_lookup (b : Board) (cell : Cell) :
    lookupKV (Board.getCanonicalCell b cell).2.knownCells (getCacheKey cell) =
      some (Board.getCanonicalCell b cell).1 := by
  unfold Board.getCanonicalCell
  cases hl : lookupKV b.knownCells (getCacheKey cell) with
  | none => simp [hl, lookupKV_setKV]
  | some c => simp [hl]

theorem getCanonicalCell_preserves {b : Board} {k : String} {c : Cell}
    (h : lookupKV b.knownCells k = some c) (cell : Cell) :
    lookupKV (Board.getCanonicalCell b cell).2.knownCells k = some c := by
  unfold Board.getCanonicalCell
  cases hl : lookupKV b.knownCells (getCacheKey cell) with
  | some c' => simpa [hl] using h
  | none =>
      simp only [hl, Option.isSome_none, Bool.false_eq_true, if_false]
      rw [lookupKV_setKV]
      by_cases hk : k = getCacheKey cell
      · subst hk; rw [h] at hl; cases hl
      · rw [if_neg hk]; exact h

theorem getCanonicalCell_tileWidth (b : Board) (cell : Cell) :
    (Board.getCanonicalCell b cell).2.tileWidth = b.tileWidth := by
  unfold Board.getCanonicalCell
  cases hl : lookupKV b.knownCells (getCacheKey cell) with
  | none => simp [hl]
  | some c => simp [hl]

theorem getCellForPoint_preserves {b : Board} {k : String} {c : Cell}
    (h : lookupKV b.knownCells k = some c) (p : LatLng) :
    lookupKV (Board.getCellForPoint b p).2.knownCells k = some c :=
  getCanonicalCell_preserves h _

theorem getCellForPoint_tileWidth (b : Board) (p : LatLng) :
    (Board.getCellForPoint b p).2.tileWidth = b.tileWidth :=
  getCanonicalCell_tileWidth b _

theorem runPoints_preserves {b : Board} {k : String} {c : Cell}
    (h : lookupKV b.knownCells k = some c) (ps : List LatLng) :
    lookupKV (runPoints b ps).knownCells k = some c := by
  induction ps generalizing b with
  | nil => exact h
  | cons p rest ih => exact ih (getCellForPoint_preserves h p)

theorem runPoints_tileWidth (b : Board) (ps : List LatLng) :
    (runPoints b ps).tileWidth = b.tileWidth := by
  induction ps generalizing b with
  | nil => rfl
  | cons p rest ih => rw [runPoints, List.foldl_cons, ← runPoints, ih, getCellForPoint_tileWidth]

theorem getCellForPoint_of_present {b : Board} {p : LatLng} {c : Cell}
    (h : lookupKV b.knownCells (getCacheKey (computedCell b p)) = some c) :
    Board.getCellForPoint b p = (c, b) := by
  rw [getCellForPoint_eq]
  unfold Board.getCanonicalCell
  simp [h]

theorem getCellForPoint_lookup (b : Board) (p : LatLng) :
    lookupKV (Board.getCellForPoint b p).2.knownCells (getCacheKey (computedCell b p)) =
      some (Board.getCellForPoint b p).1 := by
  rw [getCellForPoint_eq]
  exact getCanonicalCell_lookup b _

theorem computedCell_congr {b b' : Board} (h : b'.tileWidth = b.tileWidth) (p : LatLng) :
    computedCell b' p = computedCell b p := by
  unfold computedCell
  rw [h]

/-- C5: Cell canonicalization.  Entries of the known-cells table are never
removed by any sequence of getCellForPoint calls, and the Cell the first
call for a point produced is the one stored under its key and returned
again by any later call with an equal point, however many other lookups
intervene.  Object identity of the source's shared Cell is modelled as
being the single stored table entry. -/
theorem cell_canonicalization (b : Board) (p : LatLng) (ps : List LatLng)
    (k : String) (c : Cell) (h : lookupKV b.knownCells k = some c) :
    lookupKV (runPoints b ps).knownCells k = some c ∧
    (Board.getCellForPoint (runPoints (Board.getCellForPoint b p).2 ps) p).1 =
      (Board.getCellForPoint b p).1 := by
  refine ⟨runPoints_preserves h ps, ?_⟩
  have h₁ := getCellForPoint_lookup b p
  have h₂ := runPoints_preserves h₁ ps
  have htw : (runPoints (Board.getCellForPoint b p).2 ps).tileWidth = b.tileWidth := by
    rw [runPoints_tileWidth, getCellForPoint_tileWidth]
  have hcc := computedCell_congr htw p
  rw [← hcc] at h₂
  rw [getCellForPoint_of_present h₂]

/-- Sample board for witnesses: the configured tile width and radius and
one canonical entry for cellA. -/
def boardA : Board :=
  { tileWidth := TILE_DEGREES, visibilityRadius := 8, knownCells := [(getCacheKey cellA, cellA)] }

/-- Sample empty board for witnesses. -/
def boardE : Board :=
  { tileWidth := TILE_DEGREES, visibilityRadius := 8, knownCells := [] }

theorem boardA_lookup : lookupKV boardA.knownCells (getCacheKey cellA) = some cellA := by
  simp [boardA, lookupKV]

/-- Witness for C5 at a concrete board, point and call sequence. -/
theorem cell_canonicalization_witness :
    lookupKV boardA.knownCells (getCacheKey cellA) = some cellA ∧
    (lookupKV (runPoints boardA [{ lat := 1, lng := 1 }]).knownCells
        (getCacheKey cellA) = some cellA ∧
      (Board.getCellForPoint
          (runPoints (Board.getCellForPoint boardA { lat := 0, lng := 0 }).2
            [{ lat := 1, lng := 1 }])
          { lat := 0, lng := 0 }).1 =
        (Board.getCellForPoint boardA { lat := 0, lng := 0 }).1) :=
  ⟨boardA_lookup,
    cell_canonicalization boardA { lat := 0, lng := 0 } [{ lat := 1, lng := 1 }]
      (getCacheKey cellA) cellA boardA_lookup⟩

theorem boardWF_setKV {b : Board} (hwf : BoardWF b) (cell : Cell) :
    BoardWF { b with knownCells := setKV b.knownCells (getCacheKey cell) cell } := by
  intro e he
  simp only at he
  rcases mem_setKV he with h | h
  · subst h; rfl
  · exact hwf e h

theorem getCellForPoint_floor {b : Board} (hwf : BoardWF b) (p : LatLng) :
    (Board.getCellForPoint b p).1 = computedCell b p := by
  rw [getCellForPoint_eq]
  unfold Board.getCanonicalCell
  cases hl : lookupKV b.knownCells (getCacheKey (computedCell b p)) with
  | none => simp [hl, lookupKV_setKV]
  | some c =>
      simp only [hl, Option.isSome_some, if_true, Option.getD_some]
      have hk : getCacheKey (computedCell b p) = getCacheKey c := hwf _ (lookupKV_mem hl)
      exact (getCacheKey_injective hk).symm

theorem getCellForPoint_WF {b : Board} (hwf : BoardWF b) (p : LatLng) :
    BoardWF (Board.getCellForPoint b p).2 := by
  rw [getCellForPoint_eq]
  unfold Board.getCanonicalCell
  cases hl : lookupKV b.knownCells (getCacheKey (computedCell b p)) with
  | none =>
      simp only [hl, Option.isSome_none, Bool.false_eq_true, if_false]
      exact boardWF_setKV hwf _
  | some c => simpa [hl] using hwf

/-- C6: Cell indexing.  For every point, a well-formed board's
getCellForPoint returns exactly the cell with indices
floor(lat / tileWidth) and floor(lng / tileWidth); the operation is total
(every point yields a cell, no error branch exists) and it preserves
well-formedness, so every board reachable from the initial empty table
keeps satisfying the hypothesis. -/
theorem cell_indexing (b : Board) (p : LatLng) (hwf : BoardWF b) :
    (Board.getCellForPoint b p).1 =
      { i := Int.floor (p.lat / b.tileWidth), j := Int.floor (p.lng / b.tileWidth) } ∧
    BoardWF (Board.getCellForPoint b p).2 :=
  ⟨getCellForPoint_floor hwf p, getCellForPoint_WF hwf p⟩

/-- Witness for C6 on the empty board at a concrete point. -/
theorem cell_indexing_witness :
    BoardWF boardE ∧
    ((Board.getCellForPoint boardE { lat := 3, lng := -2 }).1 =
        { i := Int.floor ((3 : ℚ) / boardE.tileWidth)
          j := Int.floor ((-2 : ℚ) / boardE.tileWidth) } ∧
      BoardWF (Board.getCellForPoint boardE { lat := 3, lng := -2 }).2) :=
  ⟨by intro e he; simp [boardE] at he,
    cell_indexing boardE { lat := 3, lng := -2 }
      (by intro e he; simp [boardE] at he)⟩

/-- C7: Cell bounds.  getCellBounds returns the rectangle from
(i*tile, j*tile) to ((i+1)*tile, (j+1)*tile) in the same coordinate space
as the input points, and for a positive tile width every point that a
well-formed board maps to the cell satisfies
i*tile ≤ lat < (i+1)*tile and j*tile ≤ lng < (j+1)*tile. -/
theorem cell_bounds (b : Board) (cell : Cell) (p : LatLng)
    (ht : 0 < b.tileWidth) (hwf : BoardWF b) :
    Board.getCellBounds b cell =
      ({ lat := cell.i * b.tileWidth, lng := cell.j * b.tileWidth },
       { lat := (cell.i + 1) * b.tileWidth, lng := (cell.j + 1) * b.tileWidth }) ∧
    ((Board.getCellForPoint b p).1 = cell →
      cell.i * b.tileWidth ≤ p.lat ∧ p.lat < (cell.i + 1) * b.tileWidth ∧
      cell.j * b.tileWidth ≤ p.lng ∧ p.lng < (cell.j + 1) * b.tileWidth) := by
  constructor
  · unfold Board.getCellBounds
    simp
  · intro hcell
    rw [getCellForPoint_floor hwf p] at hcell
    unfold computedCell at hcell
    have hi : cell.i = Int.floor (p.lat / b.tileWidth) := by rw [← hcell]
    have hj : cell.j = Int.floor (p.lng / b.tileWidth) := by rw [← hcell]
    refine ⟨?_, ?_, ?_, ?_⟩
    · rw [hi, ← le_div_iff₀ ht]
      exact Int.floor_le _
    · rw [hi, ← div_lt_iff₀ ht]
      exact Int.lt_floor_add_one _
    · rw [hj, ← le_div_iff₀ ht]
      exact Int.floor_le _
    · rw [hj, ← div_lt_iff₀ ht]
      exact Int.lt_floor_add_one _

/-- Witness for C7 on the empty board at a concrete cell and point. -/
theorem cell_bounds_witness :
    (0 : ℚ) < boardE.tileWidth ∧ BoardWF boardE ∧
    (Board.getCellBounds boardE cellA =
        ({ lat := cellA.i * boardE.tileWidth, lng := cellA.j * boardE.tileWidth },
         { lat := (cellA.i + 1) * boardE.tileWidth, lng := (cellA.j + 1) * boardE.tileWidth }) ∧
      ((Board.getCellForPoint boardE { lat := 5, lng := 7 }).1 = cellA →
        cellA.i * boardE.tileWidth ≤ (5 : ℚ) ∧ (5 : ℚ) < (cellA.i + 1) * boardE.tileWidth ∧
        cellA.j * boardE.tileWidth ≤ (7 : ℚ) ∧ (7 : ℚ) < (cellA.j + 1) * boardE.tileWidth)) :=
  ⟨by norm_num [boardE, TILE_DEGREES], by intro e he; simp [boardE] at he,
    cell_bounds boardE cellA { lat := 5, lng := 7 }
      (by norm_num [boardE, TILE_DEGREES]) (by intro e he; simp [boardE] at he)⟩

/-- C8: Spawn determinism.  The regeneration loop body's effect on the
game state is governed by spawnDecision applied to the canonical cell's
indices — a pure function of (i, j) and the fixed seed function alone.
Whatever the center, the prior state, the call order or the session, two
loop iterations that land on cells with equal indices take the same
spawn-or-skip branch. -/
theorem spawn_determinism (center : LatLng) (st : Board × PState) (i j : Int) :
    regenStep center st (i, j) =
      ((Board.getCellForPoint st.1
          { lat := center.lat + i * TILE_DEGREES, lng := center.lng + j * TILE_DEGREES }).2,
        if spawnDecision
            (Board.getCellForPoint st.1
              { lat := center.lat + i * TILE_DEGREES, lng := center.lng + j * TILE_DEGREES }).1.i
            (Board.getCellForPoint st.1
              { lat := center.lat + i * TILE_DEGREES, lng := center.lng + j * TILE_DEGREES }).1.j
        then
          spawnCache st.2
            (Board.getCellForPoint st.1
              { lat := center.lat + i * TILE_DEGREES, lng := center.lng + j * TILE_DEGREES }).1
        else st.2) := by
  unfold regenStep spawnDecision getCacheKey
  simp only [decide_eq_true_eq]
  split
  · rfl
  · rfl

theorem spawnCache_preserves {g : PState} {k : String} {cache : Cache}
    (h : lookupKV g.cacheStore k = some cache) (cell : Cell) :
    ∃ cache', lookupKV (spawnCache g cell).cacheStore k = some cache' ∧
      cache'.coins = cache.coins := by
  unfold spawnCache saveCache
  simp only
  rw [lookupKV_setKV]
  by_cases hk : k = getCacheKey (createCache g cell).cell
  · refine ⟨createCache g cell, by rw [if_pos hk], ?_⟩
    have hk' : getCacheKey cell = k := hk.symm
    unfold createCache
    simp only
    rw [hk', h]
  · exact ⟨cache, by rw [if_neg hk]; exact h, rfl⟩

theorem regenStep_preserves {center : LatLng} {st : Board × PState} {ij : Int × Int}
    {k : String} {cache : Cache} (h : lookupKV st.2.cacheStore k = some cache) :
    ∃ cache', lookupKV (regenStep center st ij).2.cacheStore k = some cache' ∧
      cache'.coins = cache.coins := by
  unfold regenStep
  dsimp only
  split
  · exact spawnCache_preserves h _
  · exact ⟨cache, h, rfl⟩

theorem regenFold_preserves (l : List (Int × Int)) :
    ∀ (center : LatLng) (st : Board × PState) (k : String) (cache : Cache),
      lookupKV st.2.cacheStore k = some cache →
      ∃ cache', lookupKV (l.foldl (regenStep center) st).2.cacheStore k = some cache' ∧
        cache'.coins = cache.coins := by
  induction l with
  | nil => intro center st k cache h; exact ⟨cache, h, rfl⟩
  | cons ij rest ih =>
      intro center st k cache h
      obtain ⟨cache₁, h₁, hc₁⟩ := @regenStep_preserves center st ij k cache h
      obtain ⟨cache₂, h₂, hc₂⟩ := ih center (regenStep center st ij) k cache₁ h₁
      exact ⟨cache₂, h₂, by rw [hc₂, hc₁]⟩

/-- C10: Regeneration preserves cache balances.  If a cache is already
stored under a key, re-running regenerateCaches from any center leaves a
cache with the same coin count stored under that key: createCache prefers
the stored count to the seeded initial value, so re-entering an area never
resets a collected or deposited cache. -/
theorem regeneration_preserves_balances (center : LatLng) (st : Board × PState)
    (k : String) (cache : Cache) (h : lookupKV st.2.cacheStore k = some cache) :
    ∃ cache', lookupKV (regenerateCaches center st).2.cacheStore k = some cache' ∧
      cache'.coins = cache.coins := by
  unfold regenerateCaches
  exact regenFold_preserves offsetPairs center st k cache h

/-- Witness for C10 at a concrete state, store entry and center. -/
theorem regeneration_preserves_balances_witness :
    lookupKV (boardA, stateA).2.cacheStore (getCacheKey cellA) = some cacheA ∧
    ∃ cache', lookupKV
        (regenerateCaches { lat := 0, lng := 0 } (boardA, stateA)).2.cacheStore
        (getCacheKey cellA) = some cache' ∧
      cache'.coins = cacheA.coins :=
  ⟨stateA_lookup,
    regeneration_preserves_balances { lat := 0, lng := 0 } (boardA, stateA)
      (getCacheKey cellA) cacheA stateA_lookup⟩

/-- updateMovementHistory from the persisting source variant: append the
marker's current position to the movement polyline, then synchronously
save the whole game state. -/
def updateMovementHistory (f : FState) : FState :=
  saveGameState { f with history := f.history ++ [f.playerPos] }

/-- The state movePlayer has produced right after its call to
updateMovementHistory: marker moved by the deltas, new position appended
to the trail, everything saved — and the caches not yet regenerated. -/
def movePlayerSaved (latDelta lngDelta : ℚ) (st : Board × FState) : FState :=
  updateMovementHistory
    { st.2 with playerPos :=
        { lat := st.2.playerPos.lat + latDelta
          lng := st.2.playerPos.lng + lngDelta } }

/-- movePlayer from the persisting source variant: move the marker by the
deltas, append the new position to the trail and save
(updateMovementHistory), then regenerate the caches around the marker's
new position.  The save therefore precedes every cache-store write the
regeneration performs. -/
def movePlayer (latDelta lngDelta : ℚ) (st : Board × FState) : Board × FState :=
  ((regenerateCaches (movePlayerSaved latDelta lngDelta st).playerPos
      (st.1, (movePlayerSaved latDelta lngDelta st).game)).1,
    { game :=
        (regenerateCaches (movePlayerSaved latDelta lngDelta st).playerPos
          (st.1, (movePlayerSaved latDelta lngDelta st).game)).2
      playerPos := (movePlayerSaved latDelta lngDelta st).playerPos
      history := (movePlayerSaved latDelta lngDelta st).history
      storage := (movePlayerSaved latDelta lngDelta st).storage })

theorem prodSnd_mk {α β : Type} (a : α) (b : β) : (a, b).2 = b := rfl

theorem fStateGame_mk (g : PState) (p : LatLng) (h : List LatLng) (s : Storage) :
    (FState.mk g p h s).game = g := rfl

theorem movePlayer_game (latDelta lngDelta : ℚ) (st : Board × FState) :
    (movePlayer latDelta lngDelta st).2.game =
      (regenerateCaches (movePlayerSaved latDelta lngDelta st).playerPos
        (st.1, (movePlayerSaved latDelta lngDelta st).game)).2 := by
  unfold movePlayer
  rw [prodSnd_mk, fStateGame_mk]

theorem regenStep_board (center : LatLng) (st : Board × PState) (ij : Int × Int) :
    (regenStep center st ij).1 =
      (Board.getCellForPoint st.1
        { lat := center.lat + ij.1 * TILE_DEGREES
          lng := center.lng + ij.2 * TILE_DEGREES }).2 := by
  unfold regenStep
  dsimp only
  split
  · rfl
  · rfl

theorem regenStep_playerCoins (center : LatLng) (st : Board × PState) (ij : Int × Int) :
    ((regenStep center st ij).2).playerCoins = st.2.playerCoins := by
  unfold regenStep
  dsimp only
  split
  · rfl
  · rfl

theorem regenFold_playerCoins (l : List (Int × Int)) :
    ∀ (center : LatLng) (st : Board × PState),
      ((l.foldl (regenStep center) st).2).playerCoins = st.2.playerCoins := by
  induction l with
  | nil => intro center st; rfl
  | cons ij rest ih =>
      intro center st
      show ((rest.foldl (regenStep center) (regenStep center st ij)).2).playerCoins = _
      rw [ih center (regenStep center st ij), regenStep_playerCoins]

theorem regenFold_board (l : List (Int × Int)) :
    ∀ (center : LatLng) (st : Board × PState), BoardWF st.1 →
      BoardWF ((l.foldl (regenStep center) st).1) ∧
      ((l.foldl (regenStep center) st).1).tileWidth = st.1.tileWidth := by
  induction l with
  | nil => intro center st hwf; exact ⟨hwf, rfl⟩
  | cons ij rest ih =>
      intro center st hwf
      have hstep : BoardWF ((regenStep center st ij).1) := by
        rw [regenStep_board]
        exact getCellForPoint_WF hwf _
      have htw : ((regenStep center st ij).1).tileWidth = st.1.tileWidth := by
        rw [regenStep_board]
        exact getCellForPoint_tileWidth st.1 _
      have hrec := ih center (regenStep center st ij) hstep
      exact ⟨hrec.1, by rw [List.foldl_cons, hrec.2, htw]⟩

theorem spawnCache_lookup (g : PState) (cell : Cell) :
    lookupKV (spawnCache g cell).cacheStore (getCacheKey cell) =
      some (createCache g cell) := by
  unfold spawnCache saveCache
  dsimp only
  rw [lookupKV_setKV,
    if_pos (show getCacheKey cell = getCacheKey (createCache g cell).cell from rfl)]

theorem regenStep_spawn_lookup {center : LatLng} {st : Board × PState} {i j : Int} {c : Cell}
    (hcell : (Board.getCellForPoint st.1
        { lat := center.lat + i * TILE_DEGREES
          lng := center.lng + j * TILE_DEGREES }).1 = c)
    (hspawn : luck (getCacheKey c) < CACHE_SPAWN_PROBABILITY) :
    lookupKV ((regenStep center st (i, j)).2).cacheStore (getCacheKey c) =
      some (createCache st.2 c) := by
  unfold regenStep
  dsimp only
  rw [hcell, if_pos hspawn]
  exact spawnCache_lookup _ c

theorem regen_spawn_present (center : LatLng) (st : Board × PState) (i j : Int) (c : Cell)
    (hwf : BoardWF st.1)
    (hmem : (i, j) ∈ offsetPairs)
    (hci : Int.floor ((center.lat + i * TILE_DEGREES) / st.1.tileWidth) = c.i)
    (hcj : Int.floor ((center.lng + j * TILE_DEGREES) / st.1.tileWidth) = c.j)
    (hspawn : luck (getCacheKey c) < CACHE_SPAWN_PROBABILITY) :
    ∃ cache, lookupKV (regenerateCaches center st).2.cacheStore (getCacheKey c) =
      some cache := by
  obtain ⟨l₁, l₂, hsplit⟩ := List.append_of_mem hmem
  unfold regenerateCaches
  rw [hsplit, List.foldl_append, List.foldl_cons]
  have hb := regenFold_board l₁ center st hwf
  have hcell : (Board.getCellForPoint (l₁.foldl (regenStep center) st).1
      { lat := center.lat + i * TILE_DEGREES, lng := center.lng + j * TILE_DEGREES }).1 = c := by
    rw [getCellForPoint_floor hb.1]
    unfold computedCell
    dsimp only
    rw [hb.2]
    cases c with
    | mk ci cj =>
        simp only [Cell.mk.injEq]
        exact ⟨hci, hcj⟩
  have hstep : lookupKV ((regenStep center (l₁.foldl (regenStep center) st) (i, j)).2).cacheStore
      (getCacheKey c) = some (createCache (l₁.foldl (regenStep center) st).2 c) :=
    regenStep_spawn_lookup hcell hspawn
  obtain ⟨cache', h', _⟩ := regenFold_preserves l₂ center
    (regenStep center (l₁.foldl (regenStep center) st) (i, j)) (getCacheKey c)
    (createCache (l₁.foldl (regenStep center) st).2 c) hstep
  exact ⟨cache', h'⟩

/-- The cell the movement counterexample spawns a cache at. -/
def cellM : Cell := { i := 3, j := 10 }

theorem digits_of_three : Nat.digits 10 3 = [3] := by
  rw [Nat.digits_def' (by norm_num : (1 : Nat) < 10) (by norm_num : 0 < 3)]
  norm_num

theorem digits_of_ten : Nat.digits 10 10 = [0, 1] := by
  rw [Nat.digits_def' (by norm_num : (1 : Nat) < 10) (by norm_num : 0 < 10)]
  norm_num [Nat.digits_def' (by norm_num : (1 : Nat) < 10) (by norm_num : 0 < 1)]

theorem getCacheKey_cellM : getCacheKey cellM = "3,10" := by
  unfold cellM getCacheKey cellKeyStr intStr natStr natChars
  norm_num [digits_of_three, digits_of_ten]
  rfl

theorem luck_cellM_lt : luck (getCacheKey cellM) < CACHE_SPAWN_PROBABILITY := by
  rw [getCacheKey_cellM]
  unfold luck CACHE_SPAWN_PROBABILITY
  rw [show luckNum "3,10" = 27815 from rfl]
  norm_num

theorem storeA_cellM_absent : lookupKV storeA (getCacheKey cellM) = none := by
  have hne : ¬(getCacheKey cellA = getCacheKey cellM) := by
    intro hh
    have := getCacheKey_injective hh
    simp [cellA, cellM] at this
  simp [storeA, lookupKV, hne]

/-- A freshly saved full state for the persistence counterexample: the
storage snapshot agrees with the in-memory state. -/
def fStateC : FState :=
  { game := stateA
    playerPos := { lat := 0, lng := 0 }
    history := []
    storage :=
      { playerPosition := some { lat := 0, lng := 0 }
        cacheStoreKey := some storeA
        playerCoinsKey := some stateA.playerCoins
        movementHistory := some [] } }

/-- A freshly saved full state for the movement counterexample: the
player stands one tile south of the grid point whose northern neighbor
cell is cellM = (3, 10), a cell the seeded test spawns at, and the
storage snapshot agrees with the in-memory state. -/
def fStateM : FState :=
  { game := stateA
    playerPos := { lat := 2 * TILE_DEGREES, lng := 10 * TILE_DEGREES }
    history := []
    storage :=
      { playerPosition := some { lat := 2 * TILE_DEGREES, lng := 10 * TILE_DEGREES }
        cacheStoreKey := some storeA
        playerCoinsKey := some stateA.playerCoins
        movementHistory := some [] } }

/-- C9 counterexample, both failure modes of the claim that every
mutating action (collect, deposit, movement) ends with the persisted
state reflecting the in-memory state.  First, the non-persisting
handleCollect variant mutates the in-memory balance (3 coins plus the
cache's 5 make 8) while the persisted balance still reads 3.  Second, in
the persisting variant a movement by one tile north saves before
regenerateCaches runs, and the regeneration then spawns a fresh cache at
cell (3, 10) of the new neighborhood, so when the movement handler
completes the persisted cache store lacks an entry the in-memory store
holds. -/
theorem persistence_counterexample :
    ((handleCollectNoPersist fStateC cellA).game.playerCoins = 8 ∧
      (handleCollectNoPersist fStateC cellA).storage.playerCoinsKey = some 3 ∧
      (handleCollectNoPersist fStateC cellA).storage.playerCoinsKey ≠
        some (handleCollectNoPersist fStateC cellA).game.playerCoins) ∧
    (movePlayer TILE_DEGREES 0 (boardE, fStateM)).2.storage.cacheStoreKey ≠
      some (movePlayer TILE_DEGREES 0 (boardE, fStateM)).2.game.cacheStore := by
  have hcoll : handleCollect stateA cellA =
      saveCache { stateA with playerCoins := stateA.playerCoins + cacheA.coins }
        { cacheA with coins := 0 } := by
    unfold handleCollect
    rw [stateA_lookup]
    rfl
  constructor
  · refine ⟨?_, ?_, ?_⟩
    · show (handleCollect stateA cellA).playerCoins = 8
      rw [hcoll]
      rfl
    · rfl
    · show some stateA.playerCoins ≠ some (handleCollect stateA cellA).playerCoins
      rw [hcoll]
      simp [stateA, saveCache, cacheA]
  · have hpers : (movePlayer TILE_DEGREES 0 (boardE, fStateM)).2.storage.cacheStoreKey =
        some storeA := rfl
    have hmemkey : ∃ cache, lookupKV
        ((movePlayer TILE_DEGREES 0 (boardE, fStateM)).2.game.cacheStore)
        (getCacheKey cellM) = some cache := by
      rw [movePlayer_game]
      refine regen_spawn_present _ _ 0 0 cellM ?_ ?_ ?_ ?_ luck_cellM_lt
      · intro e he
        simp [boardE] at he
      · decide
      · norm_num [movePlayerSaved, updateMovementHistory, saveGameState, fStateM,
          boardE, TILE_DEGREES, cellM]
      · norm_num [movePlayerSaved, updateMovementHistory, saveGameState, fStateM,
          boardE, TILE_DEGREES, cellM]
    intro h
    rw [hpers] at h
    obtain ⟨cache, hc⟩ := hmemkey
    rw [← Option.some.inj h] at hc
    rw [storeA_cellM_absent] at hc
    exact Option.noConfusion hc

/-- C9 amended: in the source variant whose collect and deposit handlers
call saveGameState, every handler invocation either leaves the whole
state unchanged (the guard rejected a no-op) or ends with the storage
holding exactly the resulting in-memory position, cache store, balance
and movement history — the write is synchronous and inside the handler.
A movement handler also writes synchronously, but before its cache
regeneration: when it completes, the persisted position, trail and
balance equal the in-memory values, while the persisted cache store is
the store as it stood before regenerateCaches ran (so a cache the
regeneration creates is missing from storage until the next write, as
the counterexample shows).  The other variant's collect and deposit
handlers omit the write entirely. -/
theorem persistence_amended (f : FState) (cell : Cell) (latDelta lngDelta : ℚ)
    (st : Board × FState) :
    (handleCollectPersist f cell = f ∨
      (handleCollectPersist f cell).storage =
        { playerPosition := some (handleCollectPersist f cell).playerPos
          cacheStoreKey := some (handleCollectPersist f cell).game.cacheStore
          playerCoinsKey := some (handleCollectPersist f cell).game.playerCoins
          movementHistory := some (handleCollectPersist f cell).history }) ∧
    (handleDepositPersist f cell = f ∨
      (handleDepositPersist f cell).storage =
        { playerPosition := some (handleDepositPersist f cell).playerPos
          cacheStoreKey := some (handleDepositPersist f cell).game.cacheStore
          playerCoinsKey := some (handleDepositPersist f cell).game.playerCoins
          movementHistory := some (handleDepositPersist f cell).history }) ∧
    ((movePlayer latDelta lngDelta st).2.storage.playerPosition =
        some (movePlayer latDelta lngDelta st).2.playerPos ∧
      (movePlayer latDelta lngDelta st).2.storage.movementHistory =
        some (movePlayer latDelta lngDelta st).2.history ∧
      (movePlayer latDelta lngDelta st).2.storage.playerCoinsKey =
        some (movePlayer latDelta lngDelta st).2.game.playerCoins ∧
      (movePlayer latDelta lngDelta st).2.storage.cacheStoreKey =
        some st.2.game.cacheStore) := by
  refine ⟨?_, ?_, rfl, rfl, ?_, rfl⟩
  · cases hl : lookupKV f.game.cacheStore (getCacheKey cell) with
    | none =>
        have heq : handleCollectPersist f cell = f := by
          unfold handleCollectPersist
          rw [hl]
        rw [heq]
        exact Or.inl rfl
    | some cache =>
        have heq : handleCollectPersist f cell =
            if cache.coins > 0 then
              saveGameState
                { f with
                  game :=
                    saveCache { f.game with playerCoins := f.game.playerCoins + cache.coins }
                      { cache with coins := 0 } }
            else f := by
          unfold handleCollectPersist
          rw [hl]
        rw [heq]
        by_cases hc : cache.coins > 0
        · rw [if_pos hc]
          exact Or.inr rfl
        · rw [if_neg hc]
          exact Or.inl rfl
  · by_cases hp : f.game.playerCoins > 0
    · cases hl : lookupKV f.game.cacheStore (getCacheKey cell) with
      | none =>
          have heq : handleDepositPersist f cell = f := by
            unfold handleDepositPersist
            rw [if_pos hp, hl]
          rw [heq]
          exact Or.inl rfl
      | some cache =>
          have heq : handleDepositPersist f cell =
              saveGameState
                { f with
                  game :=
                    saveCache { f.game with playerCoins := 0 }
                      { cache with coins := cache.coins + f.game.playerCoins } } := by
            unfold handleDepositPersist
            rw [if_pos hp, hl]
          rw [heq]
          exact Or.inr rfl
    · have heq : handleDepositPersist f cell = f := by
        unfold handleDepositPersist
        rw [if_neg hp]
      rw [heq]
      exact Or.inl rfl
  · have hcoins : (movePlayer latDelta lngDelta st).2.game.playerCoins =
        st.2.game.playerCoins := by
      rw [movePlayer_game]
      unfold regenerateCaches
      rw [regenFold_playerCoins offsetPairs, prodSnd_mk]
      rfl
    rw [hcoins]
    rfl
